import Mathlib

/-!
# Verification of the `code_agent` repository core

Shallow embedding of the agent harness: path confinement (`pathUtils.ts`),
the response parser (`reactParser.ts`), the prompt builder (`reactPrompt.ts`),
the ReAct loop (`agent.ts`), the filesystem tools (`filesystem.ts`) and the
sandbox / file-search tools (`system.ts`).  Paths follow POSIX conventions
(`path.sep = "/"`), strings are Lean `String`s (lists of characters); the
JavaScript UTF-16 `String.length` is modelled by the code-point count, and
the on-disk size by the UTF-8 byte count.
-/

/-- JavaScript `\s` / `trim()` whitespace, restricted to the ASCII range used
by the repository (space, tab, newline, carriage return, vertical tab, form
feed). -/
def isJsSpace (c : Char) : Bool :=
  c = ' ' || c = '\t' || c = '\n' || c = '\r' || c = '\x0b' || c = '\x0c'

/-- Drop trailing whitespace from a character list. -/
def dropTrailWs (l : List Char) : List Char :=
  (l.reverse.dropWhile isJsSpace).reverse

/-- JavaScript `String.prototype.trim()` on a character list. -/
def trimChars (l : List Char) : List Char :=
  dropTrailWs (l.dropWhile isJsSpace)

/-- JavaScript `String.prototype.trim()`. -/
def jsTrimStr (s : String) : String :=
  ⟨trimChars s.data⟩

/-- Exact-prefix test on character lists. -/
def leadsChars : List Char → List Char → Bool
  | [], _ => true
  | _ :: _, [] => false
  | a :: as, b :: bs => a = b && leadsChars as bs

/-- JavaScript `String.prototype.startsWith`. -/
def strLeads (pre s : String) : Bool :=
  leadsChars pre.data s.data

/-- Substring occurrence test on character lists. -/
def occursChars (needle : List Char) : List Char → Bool
  | [] => needle.isEmpty
  | c :: cs => leadsChars needle (c :: cs) || occursChars needle cs

/-- JavaScript `String.prototype.includes`. -/
def containsStr (hay needle : String) : Bool :=
  occursChars needle.data hay.data

/-- Split a character list at every occurrence of `sep` (like
`String.prototype.split` with a single-character separator). -/
def splitChar (sep : Char) : List Char → List (List Char)
  | [] => [[]]
  | c :: cs =>
    let r := splitChar sep cs
    if c = sep then [] :: r
    else
      match r with
      | s :: rest => (c :: s) :: rest
      | [] => [[c]]

/-- Join path segments with `/`. -/
def joinSegs (segs : List (List Char)) : List Char :=
  List.intercalate ['/'] segs

/-- One step of POSIX path normalization over an absolute path's segments:
empty segments and `.` are dropped, `..` pops (and is ignored at the root). -/
def normStep (acc : List (List Char)) (seg : List Char) : List (List Char) :=
  if seg.isEmpty then acc
  else if seg = ['.'] then acc
  else if seg = ['.', '.'] then acc.dropLast
  else acc ++ [seg]

/-- Normalized segments of a (slash-separated) path string. -/
def normSegs (segs : List (List Char)) : List (List Char) :=
  segs.foldl normStep []

/-- Node `path.resolve` applied to a single absolute path: canonicalizes
`.`/`..`/duplicate separators.  (The repository only ever resolves against
`process.cwd()`, which is absolute.) -/
def posixNormAbs (s : String) : String :=
  ⟨'/' :: joinSegs (normSegs (splitChar '/' s.data))⟩

/-- Segments of a canonical absolute path. -/
def absSegs (s : String) : List (List Char) :=
  (splitChar '/' s.data).filter (fun seg => !seg.isEmpty)

/-- Rebuild an absolute path from segments. -/
def joinAbsStr (segs : List (List Char)) : String :=
  ⟨'/' :: joinSegs segs⟩

/-- Node `path.dirname` on a canonical absolute path. -/
def posixDirname (t : String) : String :=
  joinAbsStr (absSegs t).dropLast

/-- Relative-segment computation behind Node `path.relative`. -/
def relSegsGo : List (List Char) → List (List Char) → List (List Char)
  | [], ts => ts
  | f :: fs, [] => (f :: fs).map (fun _ => ['.', '.'])
  | f :: fs, t :: ts =>
    if f = t then relSegsGo fs ts
    else (f :: fs).map (fun _ => ['.', '.']) ++ t :: ts

/-- Node `path.relative` on canonical absolute paths. -/
def posixRelative (f t : String) : String :=
  ⟨joinSegs (relSegsGo (absSegs f) (absSegs t))⟩

/-- The error message thrown by `resolveRepoPath` on an escape attempt. -/
def accessMsg : String := "Access outside of repository root is not allowed."

/-- The canonicalized forced-relative resolution of a candidate path against
the root, exactly as computed inside `resolveRepoPath` (pathUtils.ts): the
trimmed candidate (empty ⇒ `.`) is prefixed with `./` unless it already
starts with `.`, then resolved against `path.resolve(cwd)`. -/
def resolvedCandidate (inputPath cwd : String) : String :=
  let root := posixNormAbs cwd
  let trimmed := jsTrimStr inputPath
  let normalized := if trimmed.length = 0 then "." else trimmed
  let prefixed := if strLeads "." normalized then normalized else "./" ++ normalized
  posixNormAbs (root ++ "/" ++ prefixed)

/-- `resolveRepoPath` (pathUtils.ts): path confinement against the root. -/
def resolveRepoPath (inputPath cwd : String) : Except String String :=
  let root := posixNormAbs cwd
  let target := resolvedCandidate inputPath cwd
  if target ≠ root ∧ strLeads (root ++ "/") target = false then .error accessMsg
  else .ok target

/-- Spec-side acceptance predicate: the canonicalized resolution equals the
root or is a separator-bounded descendant of it. -/
def repoAccepted (inputPath cwd : String) : Bool :=
  let root := posixNormAbs cwd
  let target := resolvedCandidate inputPath cwd
  target == root || strLeads (root ++ "/") target

/-- `pathFromRepoRoot` (pathUtils.ts): absolute path to root-relative display
path (`.` for the root itself). -/
def pathFromRepoRoot (absolutePath cwd : String) : String :=
  let r := posixRelative (posixNormAbs cwd) absolutePath
  if r.length = 0 then "." else r

/-- C1 counterexample: the absolute candidate `/outside` lies outside the
root `/root` (it is neither the root nor a separator-bounded descendant),
yet `resolveRepoPath` succeeds: the `./` prefixing reinterprets absolute
candidates relative to the root instead of rejecting them. -/
theorem resolveRepoPath_absolute_escape_accepted :
    resolveRepoPath "/outside" "/root" = .ok "/root/outside"
  ∧ strLeads ("/root" ++ "/") "/outside" = false
  ∧ "/outside" ≠ "/root" := by
  refine ⟨rfl, rfl, by decide⟩

/-- C1 (amended): `resolveRepoPath` succeeds, returning the canonicalized
forced-relative resolution of the candidate against the root, exactly when
that resolution equals the root or is a separator-bounded descendant of it,
and otherwise fails with the `AccessViolation` message; `..`-escapes whose
resolution leaves the root always fail, while absolute candidates are
reinterpreted relative to the root (prefixed with `./`) rather than
rejected. -/
theorem resolveRepoPath_confinement (p cwd : String) :
    (repoAccepted p cwd = true → resolveRepoPath p cwd = .ok (resolvedCandidate p cwd))
  ∧ (repoAccepted p cwd = false → resolveRepoPath p cwd = .error accessMsg) := by
  unfold repoAccepted resolveRepoPath
  constructor
  · intro h
    simp only [Bool.or_eq_true, beq_iff_eq] at h
    rcases h with h | h
    · simp [h]
    · simp [h]
  · intro h
    simp only [Bool.or_eq_false_iff, beq_eq_false_iff_ne, ne_eq] at h
    rcases h with ⟨h1, h2⟩
    simp [h1, h2]

/-- C1 witness: an in-root path resolves, a `..`-escape fails. -/
theorem resolveRepoPath_confinement_witness :
    resolveRepoPath "src" "/repo" = .ok "/repo/src"
  ∧ resolveRepoPath ".." "/repo" = .error accessMsg :=
  ⟨(resolveRepoPath_confinement "src" "/repo").1 rfl,
   (resolveRepoPath_confinement ".." "/repo").2 rfl⟩

/-- Case-insensitive (ASCII fold, as the `i` regex flag on the ASCII labels)
literal match at the head: on success returns the remainder. -/
def dropCi : List Char → List Char → Option (List Char)
  | [], hay => some hay
  | _ :: _, [] => none
  | n :: ns, h :: hs => if n.toLower = h.toLower then dropCi ns hs else none

/-- Leftmost case-insensitive occurrence of `needle`: returns the suffix
after it (regex literal search). -/
def findCi (needle : List Char) : List Char → Option (List Char)
  | [] => dropCi needle []
  | h :: hs =>
    match dropCi needle (h :: hs) with
    | some rest => some rest
    | none => findCi needle hs

/-- The `Final Response:` label of `parseReactOutput`. -/
def finalLabel : List Char := "final response:".data

/-- The `Action:` label of `parseReactOutput`. -/
def actionLabel : List Char := "action:".data

/-- The `Action Input:` label of `parseReactOutput`. -/
def actionInputLabel : List Char := "action input:".data

/-- The `Thought:` label of `extractThought`. -/
def thoughtLabel : List Char := "thought:".data

/-- `/Final Response:\s*([\s\S]+)/i` followed by `.trim()`: the leftmost
occurrence of the label must be followed by at least one character
(`[\s\S]+`); the trimmed capture is the final response. -/
def matchFinal (t : List Char) : Option (List Char) :=
  match findCi finalLabel t with
  | some rest => if rest.isEmpty then none else some (trimChars rest)
  | none => none

/-- One attempt of the action regex after `Action:` with `k` whitespace
characters consumed by `\s*`: `([^\n]+)` takes the rest of the line, the
literal `\n` must follow, then `Action Input:` and a nonempty remainder. -/
def tryActionCheck (s : List Char) (k : Nat) : Option (List Char × List Char) :=
  let rest := s.drop k
  match rest with
  | [] => none
  | c :: _ =>
    if c = '\n' then none
    else
      let line := rest.takeWhile (fun ch => ch ≠ '\n')
      let after := rest.dropWhile (fun ch => ch ≠ '\n')
      match after with
      | '\n' :: tl =>
        match dropCi actionInputLabel tl with
        | some u => if u.isEmpty then none else some (trimChars line, trimChars u)
        | none => none
      | _ => none

/-- Backtracking of the greedy `\s*` after `Action:`: try the longest
whitespace prefix first, shrinking on failure. -/
def tryActionGo (s : List Char) : Nat → Option (List Char × List Char)
  | 0 => tryActionCheck s 0
  | k + 1 =>
    match tryActionCheck s (k + 1) with
    | some r => some r
    | none => tryActionGo s k

/-- Match `/Action:\s*([^\n]+)\nAction Input:\s*([\s\S]+)/i` (with the
trailing `.trim()` of both captures): scan start positions left to right. -/
def matchAction : List Char → Option (List Char × List Char)
  | [] => none
  | c :: cs =>
    match dropCi actionLabel (c :: cs) with
    | some rest =>
      match tryActionGo rest (rest.takeWhile isJsSpace).length with
      | some r => some r
      | none => matchAction cs
    | none => matchAction cs

/-- Does `[^:]+:` match at this suffix (at least one non-colon character and
then a colon, possibly on a later line)? -/
def colonAfter (r : List Char) : Bool :=
  match r with
  | [] => false
  | c :: _ => c ≠ ':' && !((r.dropWhile (fun x => x ≠ ':')).isEmpty)

/-- ASCII letter, as `[A-Z]` under the `i` flag. -/
def isAsciiLetter (c : Char) : Bool :=
  ('A' ≤ c && c ≤ 'Z') || ('a' ≤ c && c ≤ 'z')

/-- Does the lazy thought capture stop here, i.e. does `\n[A-Z][^:]+:`
match at this suffix? -/
def thoughtStop (l : List Char) : Bool :=
  match l with
  | '\n' :: d :: r => isAsciiLetter d && colonAfter (d :: r).tail
  | _ => false

/-- The lazy `([\s\S]*?)` capture: everything up to the first position where
the `(?:\n[A-Z][^:]+:|$)` terminator matches. -/
def captureUntil : List Char → List Char
  | [] => []
  | c :: cs => if thoughtStop (c :: cs) then [] else c :: captureUntil cs

/-- `extractThought` (reactParser.ts): text after the leftmost `Thought:`
label, up to the next labelled block or end of text, trimmed; empty if the
label is absent. -/
def extractThought (t : List Char) : List Char :=
  match findCi thoughtLabel t with
  | some rest => trimChars (captureUntil (rest.dropWhile isJsSpace))
  | none => []

/-- `ReactResponse` (reactParser.ts). -/
inductive ReactResponse where
  | action (thought toolName toolInput : String)
  | final (thought finalResponse : String)
deriving DecidableEq, Repr

/-- The `UnparsableResponse` error message. -/
def unparsableMsg : String := "Unable to parse LLM response into ReAct action."

/-- `parseReactOutput` (reactParser.ts): trim, extract the thought, try the
`Final Response` pattern first, then the `Action`/`Action Input` pattern,
else fail. -/
def parseReactOutput (output : String) : Except String ReactResponse :=
  let trimmed := trimChars output.data
  let thought : String := ⟨extractThought trimmed⟩
  match matchFinal trimmed with
  | some fr => .ok (.final thought ⟨fr⟩)
  | none =>
    match matchAction trimmed with
    | some (nm, inp) => .ok (.action thought ⟨nm⟩ ⟨inp⟩)
    | none => .error unparsableMsg

/-- Message roles (types.ts). -/
inductive Role where
  | system
  | user
  | assistant
  | tool
deriving DecidableEq, Repr

/-- `ChatMessage` (types.ts). -/
structure ChatMessage where
  role : Role
  content : String
  name : Option String := none
deriving DecidableEq, Repr

/-- Environment overrides, as a key/value list. -/
abbrev EnvList := List (String × String)

/-- `ToolExecutionContext` (types.ts); the cancellation signal is not part
of the pure model. -/
structure ToolExecutionContext where
  cwd : String
  env : Option EnvList := none

/-- `Tool` (types.ts): `execute` returns the observation text or fails. -/
structure Tool where
  name : String
  description : String
  inputGuide : Option String := none
  execute : String → ToolExecutionContext → Except String String

/-- `AgentConfig` (types.ts). -/
structure AgentConfig where
  instructions : String
  tools : List Tool
  maxTurns : Option Nat := none

/-- `ToolInvocation` (types.ts). -/
structure ToolInvocation where
  toolName : String
  input : String
deriving DecidableEq, Repr

/-- `AgentThought` (types.ts): one step record. -/
structure AgentThought where
  thought : String
  action : Option ToolInvocation := none
  observation : Option String := none
  rawOutput : Option String := none
deriving Repr

/-- `AgentResult` (types.ts). -/
structure AgentResult where
  output : String
  thoughts : List AgentThought
deriving Repr

/-- `FORMAT_GUIDE` (reactPrompt.ts). -/
def formatGuide : String :=
  "Use the ReAct pattern to solve the task.\n" ++
  "Respond using the following blocks:\n" ++
  "Thought: describe what you are considering.\n" ++
  "Action: the name of a tool, exactly matching one of the provided tools.\n" ++
  "Action Input: plain text arguments for the tool.\n\n" ++
  "If you have finished, reply with:\n" ++
  "Thought: describe how you solved it.\n" ++
  "Final Response: the final answer for the user."

/-- `SAFETY_RULES` (reactPrompt.ts). -/
def safetyRules : String :=
  "- Think before acting; never guess commands.\n" ++
  "- Prefer reading files before writing to them.\n" ++
  "- Execute at most one tool per response.\n" ++
  "- Keep Action Input short and actionable.\n" ++
  "- Never fabricate tool names or capabilities."

/-- Join strings with a separator. -/
def joinWith (sep : String) : List String → String
  | [] => ""
  | [s] => s
  | s :: t :: rest => s ++ sep ++ joinWith sep (t :: rest)

/-- `buildReactMessages` (reactPrompt.ts): system message with instructions,
tool catalog, format guide and safety rules; then context messages; then the
task with the scratchpad appended when its trimmed form is nonempty. -/
def buildReactMessages (instructions : String) (tools : List Tool) (task : String)
    (scratchpad : String) (contextMessages : List ChatMessage) : List ChatMessage :=
  let toolDescriptions := joinWith "\n" (tools.map fun t =>
    "- " ++ t.name ++ ": " ++ t.description ++
      (match t.inputGuide with
       | some g => "\nInput: " ++ g
       | none => ""))
  let systemPrompt :=
    "You are an autonomous coding agent.\n" ++ jsTrimStr instructions ++
    "\n\nAvailable tools:\n" ++ toolDescriptions ++ "\n\n" ++ formatGuide ++ "\n\n" ++ safetyRules
  let scratchpadBlock :=
    if (jsTrimStr scratchpad).length ≠ 0 then "\n\nScratchpad:\n" ++ scratchpad else ""
  { role := .system, content := systemPrompt } ::
    (contextMessages ++ [{ role := .user, content := jsTrimStr task ++ scratchpadBlock }])

/-- `ReactAgent` (agent.ts), with the model abstracted as a pure function
from the request messages to the reply text. -/
structure ReactAgent where
  llm : List ChatMessage → String
  instructions : String
  tools : List Tool
  maxTurns : Nat

/-- The `ReactAgent` constructor: `maxTurns` defaults to 8. -/
def mkReactAgent (llm : List ChatMessage → String) (config : AgentConfig) : ReactAgent :=
  { llm := llm
    instructions := config.instructions
    tools := config.tools
    maxTurns := config.maxTurns.getD 8 }

/-- The `toolMap` lookup of `ReactAgent`: a JavaScript `Map` built by
inserting the tools in order, so a duplicated name keeps the last tool. -/
def lookupTool (ag : ReactAgent) (nm : String) : Option Tool :=
  ag.tools.reverse.find? (fun t => t.name == nm)

/-- The fixed exhaustion output of `ReactAgent.run`. -/
def exhaustedMsg : String := "I could not finish within the allotted number of steps."

/-- One turn's scratchpad block (`turnScratch` in agent.ts). -/
def turnScratchOf (th nm inp obs : String) : String :=
  "Thought: " ++ th ++ "\nAction: " ++ nm ++ "\nAction Input: " ++ inp ++
    "\nObservation: " ++ obs

/-- Scratchpad accumulation of agent.ts: blocks separated by a blank line. -/
def appendScratch (scratchpad turnScratch : String) : String :=
  if scratchpad.length ≠ 0 then scratchpad ++ "\n\n" ++ turnScratch else turnScratch

/-- The turn loop of `ReactAgent.run` (agent.ts), with the remaining number
of turns as the recursion measure and an explicit count of model calls.
A parse failure or an unknown tool name is thrown out of the loop; a tool
failure is converted into a `Tool execution failed: …` observation. -/
def runLoop (ag : ReactAgent) (task cwd : String) (env : Option EnvList) :
    Nat → List AgentThought → String → Nat → Except String AgentResult × Nat
  | 0, thoughts, _scratch, calls =>
    (.ok { output := exhaustedMsg, thoughts := thoughts }, calls)
  | fuel + 1, thoughts, scratch, calls =>
    let llmOutput := ag.llm (buildReactMessages ag.instructions ag.tools task scratch [])
    match parseReactOutput llmOutput with
    | .error e => (.error e, calls + 1)
    | .ok (.final th fr) =>
      (.ok { output := fr
             thoughts := thoughts ++ [{ thought := th, rawOutput := some llmOutput }] },
       calls + 1)
    | .ok (.action th nm inp) =>
      match lookupTool ag nm with
      | none => (.error ("LLM referenced unknown tool: " ++ nm), calls + 1)
      | some tool =>
        let observation :=
          match tool.execute inp { cwd := cwd, env := env } with
          | .ok o => o
          | .error m => "Tool execution failed: " ++ m
        runLoop ag task cwd env fuel
          (thoughts ++ [{ thought := th
                          action := some { toolName := nm, input := inp }
                          observation := some observation
                          rawOutput := some llmOutput }])
          (appendScratch scratch (turnScratchOf th nm inp observation))
          (calls + 1)

/-- `ReactAgent.run` (agent.ts). -/
def ReactAgent.run (ag : ReactAgent) (task cwd : String) (env : Option EnvList) :
    Except String AgentResult × Nat :=
  runLoop ag task cwd env ag.maxTurns [] "" 0

theorem strData_append (a b : String) : (a ++ b).data = a.data ++ b.data := by
  cases a; cases b; rfl

theorem leadsChars_self_append (n post : List Char) : leadsChars n (n ++ post) = true := by
  induction n with
  | nil => rfl
  | cons c cs ih => simp [leadsChars, ih]

theorem occursChars_of_leads {n h : List Char} (hl : leadsChars n h = true) :
    occursChars n h = true := by
  cases h with
  | nil =>
    cases n with
    | nil => rfl
    | cons c cs => simp [leadsChars] at hl
  | cons c cs => simp [occursChars, hl]

theorem occursChars_append_left {n h : List Char} (pre : List Char)
    (ho : occursChars n h = true) : occursChars n (pre ++ h) = true := by
  induction pre with
  | nil => simpa using ho
  | cons c cs ih => simp [occursChars, ih]

theorem leadsChars_extend {n h : List Char} (t : List Char)
    (hl : leadsChars n h = true) : leadsChars n (h ++ t) = true := by
  induction n generalizing h with
  | nil => rfl
  | cons c cs ih =>
    cases h with
    | nil => simp [leadsChars] at hl
    | cons b bs =>
      simp only [List.cons_append, leadsChars, Bool.and_eq_true] at hl ⊢
      exact ⟨hl.1, ih hl.2⟩

/-- A string contains any of its suffixes. -/
theorem containsStr_suffix (a needle : String) : containsStr (a ++ needle) needle = true := by
  unfold containsStr
  rw [strData_append]
  exact occursChars_append_left _
    (occursChars_of_leads (by simpa using leadsChars_self_append needle.data []))

/-- Containment is preserved by prepending. -/
theorem containsStr_append_left (a s needle : String) (h : containsStr s needle = true) :
    containsStr (a ++ s) needle = true := by
  unfold containsStr at *
  rw [strData_append]
  exact occursChars_append_left _ h

/-- A list whose trim is empty is all whitespace. -/
theorem all_ws_of_trimChars_nil {l : List Char} (h : trimChars l = []) :
    ∀ c ∈ l, isJsSpace c = true := by
  unfold trimChars dropTrailWs at h
  have h1 : (l.dropWhile isJsSpace).reverse.dropWhile isJsSpace = [] := by
    simpa using congrArg List.reverse h
  have h2 : ∀ c ∈ l.dropWhile isJsSpace, isJsSpace c = true := by
    intro c hc
    exact List.dropWhile_eq_nil_iff.mp h1 c (by simpa using hc)
  intro c hc
  rw [← List.takeWhile_append_dropWhile isJsSpace l] at hc
  rcases List.mem_append.mp hc with hc | hc
  · exact List.mem_takeWhile_imp hc
  · exact h2 c hc

/-- A list containing a non-whitespace character trims to something
nonempty. -/
theorem trimChars_ne_nil {l : List Char} {c : Char} (hc : c ∈ l)
    (hw : isJsSpace c = false) : trimChars l ≠ [] := by
  intro h
  rw [all_ws_of_trimChars_nil h c hc] at hw
  exact Bool.noConfusion hw

/-- Every turn scratchpad block contains the letter `T` (from `Thought: `). -/
theorem mem_T_turnScratch (th nm inp obs : String) :
    'T' ∈ (turnScratchOf th nm inp obs).data := by
  unfold turnScratchOf
  simp only [strData_append, List.append_assoc, List.mem_append]
  exact Or.inl (by decide)

/-- The scratchpad after a turn has a nonempty trimmed form, so the prompt
builder renders it. -/
theorem trim_appendScratch_ne (scratch th nm inp obs : String) :
    (jsTrimStr (appendScratch scratch (turnScratchOf th nm inp obs))).length ≠ 0 := by
  have hT : 'T' ∈ (appendScratch scratch (turnScratchOf th nm inp obs)).data := by
    unfold appendScratch
    split
    · simp only [strData_append, List.append_assoc, List.mem_append]
      exact Or.inr (Or.inr (mem_T_turnScratch th nm inp obs))
    · exact mem_T_turnScratch th nm inp obs
  have hne := trimChars_ne_nil hT (by decide)
  intro h
  exact hne (List.length_eq_zero.mp h)

/-- C3: if the model's reply at any turn parses to an `Action` naming a tool
absent from the registry, the loop returns the `UnknownTool` error with
exactly one further model call (no further turns run), and `ReactAgent.run`
is that loop started at turn 0, so the error propagates to the caller. -/
theorem run_unknown_tool_fatal :
    (∀ (ag : ReactAgent) (task cwd : String) (env : Option EnvList) (fuel : Nat)
       (thoughts : List AgentThought) (scratch : String) (calls : Nat)
       (th nm inp : String),
       parseReactOutput (ag.llm (buildReactMessages ag.instructions ag.tools task scratch []))
         = .ok (.action th nm inp) →
       lookupTool ag nm = none →
       runLoop ag task cwd env (fuel + 1) thoughts scratch calls
         = (.error ("LLM referenced unknown tool: " ++ nm), calls + 1))
  ∧ (∀ (ag : ReactAgent) (task cwd : String) (env : Option EnvList),
       ReactAgent.run ag task cwd env = runLoop ag task cwd env ag.maxTurns [] "" 0) := by
  constructor
  · intro ag task cwd env fuel thoughts scratch calls th nm inp hp hm
    simp only [runLoop, hp, hm]
  · intro ag task cwd env
    rfl

/-- Concrete agent whose model names a tool missing from the registry. -/
def wAgentUnknown : ReactAgent :=
  mkReactAgent (fun _ => "Action: mystery\nAction Input: go")
    { instructions := "i", tools := [] }

/-- C3 witness: the unknown-tool reply aborts with one model call. -/
theorem run_unknown_tool_fatal_witness :
    runLoop wAgentUnknown "task" "/repo" none (4 + 1) [] "" 0
      = (.error ("LLM referenced unknown tool: " ++ "mystery"), 0 + 1) :=
  run_unknown_tool_fatal.1 wAgentUnknown "task" "/repo" none 4 [] "" 0 "" "mystery" "go"
    rfl rfl

/-- C4: when the reply parses to an `Action` on a registered tool whose
execution fails with message `m`, the run does not fail: the loop appends a
step record whose observation is `Tool execution failed: m`, folds that
observation into the scratchpad, continues with the next turn, and the next
prompt's final (task) message contains the observation text. -/
theorem run_tool_error_recovered
    (ag : ReactAgent) (task cwd : String) (env : Option EnvList) (fuel : Nat)
    (thoughts : List AgentThought) (scratch : String) (calls : Nat)
    (th nm inp m : String) (tool : Tool)
    (hp : parseReactOutput (ag.llm (buildReactMessages ag.instructions ag.tools task scratch []))
      = .ok (.action th nm inp))
    (ht : lookupTool ag nm = some tool)
    (he : tool.execute inp { cwd := cwd, env := env } = .error m) :
    runLoop ag task cwd env (fuel + 1) thoughts scratch calls
      = runLoop ag task cwd env fuel
          (thoughts ++ [{ thought := th
                          action := some { toolName := nm, input := inp }
                          observation := some ("Tool execution failed: " ++ m)
                          rawOutput := some (ag.llm (buildReactMessages ag.instructions ag.tools task scratch [])) }])
          (appendScratch scratch (turnScratchOf th nm inp ("Tool execution failed: " ++ m)))
          (calls + 1)
  ∧ containsStr (appendScratch scratch (turnScratchOf th nm inp ("Tool execution failed: " ++ m)))
      ("Tool execution failed: " ++ m) = true
  ∧ ((buildReactMessages ag.instructions ag.tools task
        (appendScratch scratch (turnScratchOf th nm inp ("Tool execution failed: " ++ m))) []).getLast?.map
          (fun u => containsStr u.content ("Tool execution failed: " ++ m))) = some true := by
  have hturn : containsStr (turnScratchOf th nm inp ("Tool execution failed: " ++ m))
      ("Tool execution failed: " ++ m) = true := by
    unfold turnScratchOf
    exact containsStr_suffix _ _
  have hscr : containsStr (appendScratch scratch (turnScratchOf th nm inp ("Tool execution failed: " ++ m)))
      ("Tool execution failed: " ++ m) = true := by
    unfold appendScratch
    split
    · exact containsStr_append_left _ _ _ hturn
    · exact hturn
  refine ⟨?_, hscr, ?_⟩
  · simp only [runLoop, hp, ht, he]
  · have hblock := trim_appendScratch_ne scratch th nm inp ("Tool execution failed: " ++ m)
    have hcont : containsStr (jsTrimStr task ++
        (if (jsTrimStr (appendScratch scratch (turnScratchOf th nm inp ("Tool execution failed: " ++ m)))).length ≠ 0
         then "\n\nScratchpad:\n" ++ appendScratch scratch (turnScratchOf th nm inp ("Tool execution failed: " ++ m))
         else "")) ("Tool execution failed: " ++ m) = true := by
      rw [if_pos hblock]
      exact containsStr_append_left _ _ _ (containsStr_append_left _ _ _ hscr)
    exact congrArg some hcont

/-- Concrete failing tool for the C4 witness. -/
def wToolBoom : Tool :=
  { name := "boom", description := "d", execute := fun _ _ => .error "kaboom" }

/-- Concrete agent whose model calls the failing tool. -/
def wAgentBoom : ReactAgent :=
  mkReactAgent (fun _ => "Action: boom\nAction Input: x")
    { instructions := "i", tools := [wToolBoom] }

/-- C4 witness at a concrete failing tool call. -/
theorem run_tool_error_recovered_witness :
    (runLoop wAgentBoom "t" "/repo" none (0 + 1) [] "" 0
      = runLoop wAgentBoom "t" "/repo" none 0
          ([] ++ [{ thought := "", action := some { toolName := "boom", input := "x" },
                    observation := some ("Tool execution failed: " ++ "kaboom"),
                    rawOutput := some (wAgentBoom.llm (buildReactMessages wAgentBoom.instructions wAgentBoom.tools "t" "" [])) }])
          (appendScratch "" (turnScratchOf "" "boom" "x" ("Tool execution failed: " ++ "kaboom")))
          (0 + 1))
  ∧ containsStr (appendScratch "" (turnScratchOf "" "boom" "x" ("Tool execution failed: " ++ "kaboom")))
      ("Tool execution failed: " ++ "kaboom") = true
  ∧ ((buildReactMessages wAgentBoom.instructions wAgentBoom.tools "t"
        (appendScratch "" (turnScratchOf "" "boom" "x" ("Tool execution failed: " ++ "kaboom"))) []).getLast?.map
          (fun u => containsStr u.content ("Tool execution failed: " ++ "kaboom"))) = some true :=
  run_tool_error_recovered wAgentBoom "t" "/repo" none 0 [] "" 0 "" "boom" "x" "kaboom"
    wToolBoom rfl rfl rfl

/-- A step record created for an `Action` turn: it carries the tool
invocation, an observation and the raw model text. -/
def isActionRecord (r : AgentThought) : Bool :=
  r.action.isSome && r.observation.isSome && r.rawOutput.isSome

/-- The step record appended on `Final`: thought and raw text only, no
action and no observation. -/
def isFinalRecord (r : AgentThought) : Bool :=
  r.action.isNone && r.observation.isNone && r.rawOutput.isSome

/-- Shape invariant of the records accumulated by the loop: starting from
action-shaped records, a successful run adds one record per model call, all
action-shaped except possibly a final-shaped last one. -/
theorem runLoop_records (ag : ReactAgent) (task cwd : String) (env : Option EnvList) :
    ∀ fuel thoughts scratch calls res calls',
      (∀ r ∈ thoughts, isActionRecord r = true) →
      runLoop ag task cwd env fuel thoughts scratch calls = (.ok res, calls') →
      res.thoughts.length + calls = thoughts.length + calls'
      ∧ (∀ r ∈ res.thoughts.dropLast, isActionRecord r = true)
      ∧ (∀ r, res.thoughts.getLast? = some r →
          isActionRecord r = true ∨ isFinalRecord r = true) := by
  intro fuel
  induction fuel with
  | zero =>
    intro thoughts scratch calls res calls' hall hrun
    simp only [runLoop, Prod.mk.injEq, Except.ok.injEq] at hrun
    obtain ⟨hres, hcalls⟩ := hrun
    subst hcalls
    subst hres
    refine ⟨rfl, ?_, ?_⟩
    · intro r hr
      exact hall r ((List.dropLast_sublist thoughts).subset hr)
    · intro r hr
      exact Or.inl (hall r (List.mem_of_mem_getLast? hr))
  | succ n ih =>
    intro thoughts scratch calls res calls' hall hrun
    cases hp : parseReactOutput (ag.llm (buildReactMessages ag.instructions ag.tools task scratch [])) with
    | error e => simp [runLoop, hp] at hrun
    | ok pr =>
      cases pr with
      | final th fr =>
        simp only [runLoop, hp, Prod.mk.injEq, Except.ok.injEq] at hrun
        obtain ⟨hres, hcalls⟩ := hrun
        refine ⟨?_, ?_, ?_⟩
        · rw [← hres]
          simp
          omega
        · intro r hr
          rw [← hres] at hr
          simp only [List.dropLast_concat] at hr
          exact hall r hr
        · intro r hr
          rw [← hres] at hr
          simp only [List.getLast?_concat, Option.some.injEq] at hr
          subst hr
          exact Or.inr rfl
      | action th nm inp =>
        cases ht : lookupTool ag nm with
        | none => simp [runLoop, hp, ht] at hrun
        | some tool =>
          simp only [runLoop, hp, ht] at hrun
          have hall' : ∀ r ∈ thoughts ++
              [{ thought := th
                 action := some { toolName := nm, input := inp }
                 observation := some (match tool.execute inp { cwd := cwd, env := env } with
                   | .ok o => o
                   | .error m => "Tool execution failed: " ++ m)
                 rawOutput := some (ag.llm (buildReactMessages ag.instructions ag.tools task scratch [])) }],
              isActionRecord r = true := by
            intro r hr
            rcases List.mem_append.mp hr with h | h
            · exact hall r h
            · simp only [List.mem_singleton] at h
              subst h
              rfl
          obtain ⟨h1, h2, h3⟩ := ih _ _ _ _ _ hall' hrun
          refine ⟨?_, h2, h3⟩
          simp only [List.length_append, List.length_singleton] at h1
          omega

/-- If every model reply parses to an `Action` naming a registered tool, the
loop consumes all its remaining turns and ends in the exhaustion result. -/
theorem runLoop_exhausts (ag : ReactAgent) (task cwd : String) (env : Option EnvList)
    (H : ∀ msgs, ∃ th nm inp tool,
      parseReactOutput (ag.llm msgs) = .ok (.action th nm inp)
      ∧ lookupTool ag nm = some tool) :
    ∀ fuel thoughts scratch calls, ∃ ths,
      runLoop ag task cwd env fuel thoughts scratch calls
        = (.ok { output := exhaustedMsg, thoughts := ths }, calls + fuel) := by
  intro fuel
  induction fuel with
  | zero =>
    intro thoughts scratch calls
    exact ⟨thoughts, by simp [runLoop]⟩
  | succ n ih =>
    intro thoughts scratch calls
    obtain ⟨th, nm, inp, tool, hp, ht⟩ :=
      H (buildReactMessages ag.instructions ag.tools task scratch [])
    cases hex : tool.execute inp { cwd := cwd, env := env } with
    | ok o =>
      obtain ⟨ths, hrec⟩ := ih
        (thoughts ++ [{ thought := th
                        action := some { toolName := nm, input := inp }
                        observation := some o
                        rawOutput := some (ag.llm (buildReactMessages ag.instructions ag.tools task scratch [])) }])
        (appendScratch scratch (turnScratchOf th nm inp o)) (calls + 1)
      refine ⟨ths, ?_⟩
      simp only [runLoop, hp, ht, hex]
      rw [hrec]
      congr 1
      omega
    | error m =>
      obtain ⟨ths, hrec⟩ := ih
        (thoughts ++ [{ thought := th
                        action := some { toolName := nm, input := inp }
                        observation := some ("Tool execution failed: " ++ m)
                        rawOutput := some (ag.llm (buildReactMessages ag.instructions ag.tools task scratch [])) }])
        (appendScratch scratch (turnScratchOf th nm inp ("Tool execution failed: " ++ m))) (calls + 1)
      refine ⟨ths, ?_⟩
      simp only [runLoop, hp, ht, hex]
      rw [hrec]
      congr 1
      omega

/-- C5: when every model reply parses to an `Action` naming a registered
tool (so no turn is `Final`), `ReactAgent.run` never throws: it uses exactly
`maxTurns` model calls and returns the fixed exhaustion output together with
the accumulated step records; moreover the constructor defaults `maxTurns`
to 8 when it is not configured. -/
theorem run_exhaustion_message (ag : ReactAgent) (task cwd : String) (env : Option EnvList)
    (H : ∀ msgs, ∃ th nm inp tool,
      parseReactOutput (ag.llm msgs) = .ok (.action th nm inp)
      ∧ lookupTool ag nm = some tool) :
    ((ReactAgent.run ag task cwd env).1.map (fun r => r.output)
        = .ok "I could not finish within the allotted number of steps.")
  ∧ (ReactAgent.run ag task cwd env).2 = ag.maxTurns
  ∧ ((ReactAgent.run ag task cwd env).1.map (fun r => r.thoughts.length) = .ok ag.maxTurns)
  ∧ ∀ llm instr tls,
      (mkReactAgent llm { instructions := instr, tools := tls }).maxTurns = 8 := by
  obtain ⟨ths, h⟩ := runLoop_exhausts ag task cwd env H ag.maxTurns [] "" 0
  have hrun : ReactAgent.run ag task cwd env
      = (.ok { output := exhaustedMsg, thoughts := ths }, 0 + ag.maxTurns) := h
  have hlen := (runLoop_records ag task cwd env ag.maxTurns [] "" 0
    { output := exhaustedMsg, thoughts := ths } (0 + ag.maxTurns) (by simp) h).1
  simp only [List.length_nil] at hlen
  refine ⟨?_, ?_, ?_, ?_⟩
  · rw [hrun]
    rfl
  · rw [hrun]
    simp
  · rw [hrun]
    show Except.ok ths.length = Except.ok ag.maxTurns
    rw [show ths.length = ag.maxTurns by omega]
  · intro llm instr tls
    rfl

/-- Concrete tool for the C5 witness. -/
def wToolEcho : Tool :=
  { name := "echo", description := "d", execute := fun i _ => .ok i }

/-- Concrete agent that always calls `echo` and never finishes. -/
def wAgentEcho : ReactAgent :=
  mkReactAgent (fun _ => "Action: echo\nAction Input: hi")
    { instructions := "i", tools := [wToolEcho] }

/-- C5 witness: the echo agent exhausts its (default 8) turns with the fixed
message. -/
theorem run_exhaustion_message_witness :
    ((ReactAgent.run wAgentEcho "t" "/repo" none).1.map (fun r => r.output)
        = .ok "I could not finish within the allotted number of steps.")
  ∧ (ReactAgent.run wAgentEcho "t" "/repo" none).2 = wAgentEcho.maxTurns
  ∧ ((ReactAgent.run wAgentEcho "t" "/repo" none).1.map (fun r => r.thoughts.length)
      = .ok wAgentEcho.maxTurns)
  ∧ (mkReactAgent (fun _ => "") { instructions := "", tools := [] }).maxTurns = 8 := by
  have h := run_exhaustion_message wAgentEcho "t" "/repo" none
    (fun _ => ⟨"", "echo", "hi", wToolEcho, rfl, rfl⟩)
  exact ⟨h.1, h.2.1, h.2.2.1, h.2.2.2 (fun _ => "") "" []⟩

/-- C10: in every successful `RunResult`, there is exactly one step record
per model reply (in turn order); every record except possibly the last is an
action record carrying the tool name, input, observation and raw model text,
and the last record is either an action record (exhaustion) or the single
final record carrying the thought and raw text but no action and no
observation. -/
theorem run_step_records_shape (ag : ReactAgent) (task cwd : String)
    (env : Option EnvList) (res : AgentResult) (calls' : Nat)
    (h : ReactAgent.run ag task cwd env = (.ok res, calls')) :
    res.thoughts.length = calls'
  ∧ (∀ r ∈ res.thoughts.dropLast, isActionRecord r = true)
  ∧ (∀ r, res.thoughts.getLast? = some r →
      isActionRecord r = true ∨ isFinalRecord r = true) := by
  have := runLoop_records ag task cwd env ag.maxTurns [] "" 0 res calls' (by simp) h
  simpa using this

/-- Concrete agent answering `Final` on the first turn, for the C10
witness. -/
def wAgentFinal : ReactAgent :=
  mkReactAgent (fun _ => "Thought: ok\nFinal Response: done")
    { instructions := "i", tools := [], maxTurns := some 1 }

/-- The result of running `wAgentFinal` for one turn. -/
def wResultFinal : AgentResult :=
  { output := "done"
    thoughts := [{ thought := "ok", rawOutput := some "Thought: ok\nFinal Response: done" }] }

/-- C10 witness: a one-turn final run yields one final-shaped record. -/
theorem run_step_records_shape_witness :
    wResultFinal.thoughts.length = 1
  ∧ (isActionRecord { thought := "ok", rawOutput := some "Thought: ok\nFinal Response: done" } = true
      ∨ isFinalRecord { thought := "ok", rawOutput := some "Thought: ok\nFinal Response: done" } = true) :=
  ⟨(run_step_records_shape wAgentFinal "t" "/repo" none wResultFinal 1 rfl).1,
   (run_step_records_shape wAgentFinal "t" "/repo" none wResultFinal 1 rfl).2.2
     { thought := "ok", rawOutput := some "Thought: ok\nFinal Response: done" } rfl⟩

/-- Outcome of invoking the sandbox's process-termination capability: it
either throws an error message back into the script or would terminate the
hosting process. -/
inductive ExitOutcome where
  | threw (msg : String)
  | terminated (code : Int)
deriving DecidableEq, Repr

/-- The replacement `process` object installed in the `vm` sandbox
(`createSandboxProcess`, system.ts): merged environment, the confined
working directory, and an `exit` stub that always throws. -/
structure SandboxProcessModel where
  env : List (String × String)
  cwdResult : Except String String
  exit : Int → ExitOutcome

/-- The message thrown by the sandboxed `process.exit(code)` stub. -/
def sandboxExitMsg (code : Int) : String :=
  "process.exit(" ++ toString code ++ ") is not allowed inside the node tool."

/-- `createSandboxProcess` (system.ts). -/
def createSandboxProcess (hostEnv : List (String × String))
    (ctx : ToolExecutionContext) : SandboxProcessModel :=
  { env := hostEnv ++ (ctx.env.getD [])
    cwdResult := resolveRepoPath "." ctx.cwd
    exit := fun code => .threw (sandboxExitMsg code) }

/-- The restricted global surface built by `runUserNodeSnippet` (system.ts)
and shared by the `node` and `node_user_visible` tools; script evaluation
itself (`vm.Script`) is outside the pure model, but every script sees
exactly this `process` object. -/
structure NodeSandboxModel where
  process : SandboxProcessModel

/-- The sandbox both node tools construct for each snippet. -/
def runUserNodeSnippetSandbox (hostEnv : List (String × String))
    (ctx : ToolExecutionContext) : NodeSandboxModel :=
  { process := createSandboxProcess hostEnv ctx }

/-- C2: for every exit code, the `process.exit` capability visible to
scripts run by the `node` / `node_user_visible` tools throws the
`not allowed` error and never terminates the hosting process. -/
theorem sandbox_exit_never_terminates (hostEnv : List (String × String))
    (ctx : ToolExecutionContext) (code : Int) :
    (runUserNodeSnippetSandbox hostEnv ctx).process.exit code
      = .threw (sandboxExitMsg code)
  ∧ containsStr (sandboxExitMsg code) "is not allowed" = true
  ∧ containsStr (sandboxExitMsg code) "process.exit" = true := by
  refine ⟨rfl, ?_, ?_⟩
  · unfold sandboxExitMsg
    exact containsStr_append_left _ _ _ (by decide)
  · unfold sandboxExitMsg containsStr
    rw [strData_append, strData_append]
    exact occursChars_of_leads (leadsChars_extend _ (leadsChars_extend _ (by decide)))

/-- ASCII-fold a character list (case-insensitive comparison key). -/
def lowerL (l : List Char) : List Char := l.map Char.toLower

theorem dropCi_sound {n h r : List Char} (hd : dropCi n h = some r) :
    ∃ m, h = m ++ r ∧ lowerL m = lowerL n := by
  induction n generalizing h with
  | nil =>
    simp only [dropCi, Option.some.injEq] at hd
    exact ⟨[], by simp [hd], rfl⟩
  | cons c cs ih =>
    cases h with
    | nil => simp [dropCi] at hd
    | cons b bs =>
      simp only [dropCi] at hd
      split at hd
      · rename_i heq
        obtain ⟨m, hm, hl⟩ := ih hd
        exact ⟨b :: m, by simp [hm], by simp [lowerL] at hl ⊢; exact ⟨heq.symm, hl⟩⟩
      · simp at hd

theorem dropCi_complete {n m : List Char} (post : List Char)
    (hl : lowerL m = lowerL n) : dropCi n (m ++ post) = some post := by
  induction n generalizing m with
  | nil =>
    cases m with
    | nil => rfl
    | cons b bs => simp [lowerL] at hl
  | cons c cs ih =>
    cases m with
    | nil => simp [lowerL] at hl
    | cons b bs =>
      simp only [lowerL, List.map_cons, List.cons.injEq] at hl
      have h1 : c.toLower = b.toLower := hl.1.symm
      simp only [List.cons_append, dropCi]
      rw [if_pos h1]
      exact ih hl.2

theorem dropCi_length {n h r : List Char} (hd : dropCi n h = some r) :
    h.length = n.length + r.length := by
  obtain ⟨m, hm, hl⟩ := dropCi_sound hd
  have hmn : m.length = n.length := by
    simpa [lowerL] using congrArg List.length hl
  subst hm
  simp [List.length_append, hmn]

theorem findCi_sound {n h r : List Char} (hf : findCi n h = some r) :
    ∃ p m, h = p ++ m ++ r ∧ lowerL m = lowerL n := by
  induction h with
  | nil =>
    simp only [findCi] at hf
    obtain ⟨m, hm, hl⟩ := dropCi_sound hf
    exact ⟨[], m, by simpa using hm, hl⟩
  | cons c cs ih =>
    simp only [findCi] at hf
    split at hf
    · rename_i rest heq
      obtain rfl : rest = r := by injection hf
      obtain ⟨m, hm, hl⟩ := dropCi_sound heq
      exact ⟨[], m, by simpa using hm, hl⟩
    · obtain ⟨p, m, hm, hl⟩ := ih hf
      exact ⟨c :: p, m, by simp [hm], hl⟩

theorem findCi_of_decomp {n : List Char} :
    ∀ {h : List Char} (p : List Char) {m post : List Char},
      h = p ++ m ++ post → lowerL m = lowerL n →
      ∃ r, findCi n h = some r ∧ post.length ≤ r.length := by
  intro h p
  induction p generalizing h with
  | nil =>
    intro m post hh hl
    subst hh
    have hd : dropCi n (m ++ post) = some post := dropCi_complete post hl
    cases hmp : (m ++ post : List Char) with
    | nil =>
      refine ⟨post, ?_, le_refl _⟩
      rw [hmp] at hd
      simp only [List.nil_append, hmp, findCi]
      exact hd
    | cons c cs =>
      refine ⟨post, ?_, le_refl _⟩
      rw [hmp] at hd
      simp only [List.nil_append, hmp, findCi, hd]
  | cons a ps ih =>
    intro m post hh hl
    subst hh
    simp only [List.cons_append]
    cases hda : dropCi n (a :: (ps ++ m ++ post)) with
    | some rest =>
      refine ⟨rest, ?_, ?_⟩
      · simp only [findCi, hda]
      · have hlen := dropCi_length hda
        have hmn : m.length = n.length := by
          simpa [lowerL] using congrArg List.length hl
        simp only [List.length_cons, List.length_append] at hlen
        omega
    | none =>
      obtain ⟨r, hr, hle⟩ := @ih (ps ++ m ++ post) m post rfl hl
      refine ⟨r, ?_, hle⟩
      simp only [findCi, hda]
      exact hr

/-- The spec-side presence of a `Final Response:` label with at least one
character of content after it (case-insensitively). -/
def FinalPresent (t : List Char) : Prop :=
  ∃ pre mid post, t = pre ++ mid ++ post ∧ lowerL mid = lowerL finalLabel ∧ post ≠ []

/-- The `Final` pattern of the parser matches exactly when a `Final
Response:` label followed by at least one character is present. -/
theorem matchFinal_isSome_iff (t : List Char) :
    (matchFinal t).isSome = true ↔ FinalPresent t := by
  constructor
  · intro h
    unfold matchFinal at h
    cases hf : findCi finalLabel t with
    | none => rw [hf] at h; simp at h
    | some rest =>
      rw [hf] at h
      by_cases hre : rest.isEmpty
      · simp [hre] at h
      · obtain ⟨p, m, hm, hl⟩ := findCi_sound hf
        exact ⟨p, m, rest, hm, hl, by simpa [List.isEmpty_iff] using hre⟩
  · rintro ⟨pre, mid, post, rfl, hl, hpost⟩
    obtain ⟨r, hr, hle⟩ := findCi_of_decomp pre rfl hl
    unfold matchFinal
    rw [hr]
    have hrne : r.isEmpty = false := by
      cases r with
      | nil =>
        exfalso
        exact hpost (List.length_eq_zero.mp (Nat.le_zero.mp hle))
      | cons x xs => rfl
    simp [hrne]

/-- C6 counterexample: the text `Final Response:` contains the Final label
(case-insensitively), yet the parser fails with `UnparsableResponse`
because the label is followed by no content (`[\s\S]+` needs one
character), instead of returning `Final`. -/
theorem parse_final_label_counterexample :
    (findCi finalLabel ("Final Response:".data)).isSome = true
  ∧ parseReactOutput "Final Response:" = .error unparsableMsg := by
  exact ⟨rfl, rfl⟩

/-- C6 (amended): the parser returns exactly one shape: `Final` whenever a
`Final Response:` label followed by at least one character is present (this
takes priority even when the Action pattern also matches), `Action` when no
such Final label is present but the `Action:` line immediately followed by
an `Action Input:` label (with nonempty input) matches, and it fails with
`UnparsableResponse` exactly when neither pattern matches; label matching is
case-insensitive. -/
theorem parseReactOutput_trichotomy (out : String) :
    (FinalPresent (trimChars out.data) →
      parseReactOutput out = .ok (.final ⟨extractThought (trimChars out.data)⟩
        ⟨(matchFinal (trimChars out.data)).getD []⟩))
  ∧ (¬ FinalPresent (trimChars out.data) →
      ∀ nm inp, matchAction (trimChars out.data) = some (nm, inp) →
        parseReactOutput out = .ok (.action ⟨extractThought (trimChars out.data)⟩ ⟨nm⟩ ⟨inp⟩))
  ∧ (parseReactOutput out = .error unparsableMsg ↔
      (¬ FinalPresent (trimChars out.data) ∧ matchAction (trimChars out.data) = none)) := by
  have hiff := matchFinal_isSome_iff (trimChars out.data)
  refine ⟨?_, ?_, ?_⟩
  · intro h
    obtain ⟨fr, hfr⟩ := Option.isSome_iff_exists.mp (hiff.mpr h)
    unfold parseReactOutput
    dsimp only
    simp only [hfr]
    rfl
  · intro hnf nm inp hma
    have hmf : matchFinal (trimChars out.data) = none := by
      cases hmf : matchFinal (trimChars out.data) with
      | none => rfl
      | some v => exact absurd (hiff.mp (by simp [hmf])) hnf
    unfold parseReactOutput
    dsimp only
    rw [hmf, hma]
  · constructor
    · intro h
      unfold parseReactOutput at h
      dsimp only at h
      cases hmf : matchFinal (trimChars out.data) with
      | some v => rw [hmf] at h; simp at h
      | none =>
        rw [hmf] at h
        cases hma : matchAction (trimChars out.data) with
        | some v => rw [hma] at h; simp at h
        | none =>
          refine ⟨fun hfp => ?_, rfl⟩
          rw [(by simp [hmf] : (matchFinal (trimChars out.data)).isSome = false)] at hiff
          simpa using hiff.mpr hfp
    · rintro ⟨hnf, hma⟩
      have hmf : matchFinal (trimChars out.data) = none := by
        cases hmf : matchFinal (trimChars out.data) with
        | none => rfl
        | some v => exact absurd (hiff.mp (by simp [hmf])) hnf
      unfold parseReactOutput
      dsimp only
      rw [hmf, hma]

/-- C6 witness: a case-twisted Final reply parses to `Final` even though the
Action pattern also matches. -/
theorem parseReactOutput_trichotomy_witness :
    parseReactOutput "action: t\naction input: x\nfinal RESPONSE: yay"
      = .ok (.final
          ⟨extractThought (trimChars ("action: t\naction input: x\nfinal RESPONSE: yay" : String).data)⟩
          ⟨(matchFinal (trimChars ("action: t\naction input: x\nfinal RESPONSE: yay" : String).data)).getD []⟩) :=
  (parseReactOutput_trichotomy "action: t\naction input: x\nfinal RESPONSE: yay").1
    ⟨"action: t\naction input: x\n".data, "final RESPONSE:".data, " yay".data,
      by decide, by decide, by decide⟩

/-- UTF-8 byte size of a string (the size of the file a write produces). -/
def utf8Len (s : String) : Nat :=
  s.data.foldl (fun n c => n + c.utf8Size) 0

/-- A pure filesystem state: files (absolute canonical path to contents,
first entry wins on lookup) and the set of directories. -/
structure FsState where
  files : List (String × String)
  dirs : List String

/-- Does `p` name a directory? -/
def FsState.isDir (fs : FsState) (p : String) : Bool :=
  fs.dirs.contains p

/-- File contents at `p`, if any. -/
def FsState.lookupFile (fs : FsState) (p : String) : Option String :=
  (fs.files.find? (fun e => e.1 == p)).map (fun e => e.2)

/-- Does `p` name a file? -/
def FsState.isFile (fs : FsState) (p : String) : Bool :=
  (fs.lookupFile p).isSome

/-- All the (root-first) ancestor paths of a canonical absolute directory,
including itself. -/
def ancestorsOf (d : String) : List String :=
  (List.range ((absSegs d).length + 1)).map (fun i => joinAbsStr ((absSegs d).take i))

/-- `fs.mkdir(directory, {recursive: true})`: creates the directory and its
missing ancestors; fails when a path component already exists as a file. -/
def mkdirRec (fs : FsState) (d : String) : Except String FsState :=
  if (ancestorsOf d).any (fun a => fs.isFile a) then
    .error ("EEXIST: file already exists, mkdir " ++ d)
  else
    .ok { fs with dirs := fs.dirs ++ (ancestorsOf d).filter (fun a => !(fs.dirs.contains a)) }

/-- `createWriteFileTool().execute` (filesystem.ts) after the JSON payload
has been parsed to `{path, contents}`: confine the path, create parent
directories, write the file, and return the confirmation message with
`contents.length` and the root-relative path. -/
def writeFileExec (p c cwd : String) (fs : FsState) : Except String (FsState × String) :=
  match resolveRepoPath p cwd with
  | .error e => .error e
  | .ok target =>
    match mkdirRec fs (posixDirname target) with
    | .error e => .error e
    | .ok fs1 =>
      if fs1.isDir target then
        .error ("EISDIR: illegal operation on a directory, open " ++ target)
      else
        .ok ({ fs1 with files := (target, c) :: fs1.files },
          "Wrote " ++ toString c.length ++ " characters to " ++ pathFromRepoRoot target cwd)

/-- `createReadFileTool().execute` (filesystem.ts): trim the input, require a
nonempty path, confine it, fail on directories, report files over the 200KB
stat limit, and truncate displayed contents past 4000 characters. -/
def readFileExec (input cwd : String) (fs : FsState) : Except String String :=
  let relative := jsTrimStr input
  if relative.length = 0 then
    .error "Please provide a file path relative to the repository root."
  else
    match resolveRepoPath relative cwd with
    | .error e => .error e
    | .ok target =>
      if fs.isDir target then
        .error "Cannot read a directory. Provide a file path."
      else
        match fs.lookupFile target with
        | none => .error ("ENOENT: no such file or directory, stat " ++ target)
        | some contents =>
          if 200000 < utf8Len contents then
            .ok "File too large to display (200KB limit)."
          else if 4000 < contents.length then
            .ok ((⟨contents.data.take 4000⟩ : String) ++ "\n...truncated...")
          else
            .ok contents

/-- Exact-prefix drop: on success returns the remainder. -/
def dropLead : List Char → List Char → Option (List Char)
  | [], h => some h
  | _ :: _, [] => none
  | a :: as, b :: bs => if a = b then dropLead as bs else none

/-- If `q` is an immediate child path of directory `d`, its entry name. -/
def childNameOf (d q : String) : Option String :=
  let pre := if d = "/" then "/" else d ++ "/"
  match dropLead pre.data q.data with
  | none => none
  | some rest =>
    if rest.isEmpty || rest.contains '/' then none else some ⟨rest⟩

/-- `path.join(current, name)` for a canonical absolute directory and a
separator-free entry name. -/
def childPath (d n : String) : String :=
  (if d = "/" then "/" else d ++ "/") ++ n

/-- The entries `readdir` lists for directory `d`: the immediate children
derivable from the state, each with its `isDirectory` flag. -/
def entriesOf (fs : FsState) (d : String) : List (String × Bool) :=
  fs.dirs.filterMap (fun q => (childNameOf d q).map (fun n => (n, true)))
    ++ fs.files.filterMap (fun e => (childNameOf d e.1).map (fun n => (n, false)))

/-- `fs.readdir` with `withFileTypes`: fails on a missing directory. -/
def readdirFs (fs : FsState) (d : String) : Except String (List (String × Bool)) :=
  if fs.dirs.contains d then .ok (entriesOf fs d)
  else .error ("ENOENT: no such file or directory, scandir " ++ d)

/-- Strip one trailing carriage return (the `\r?` of the line split). -/
def stripCR (l : List Char) : List Char :=
  match l.reverse with
  | '\r' :: rest => rest.reverse
  | _ => l

/-- `contents.split(/\r?\n/)`: split on newlines, stripping one carriage
return before each newline (the final fragment keeps any trailing `\r`). -/
def splitLinesJs (s : String) : List String :=
  let parts := splitChar '\n' s.data
  (parts.dropLast.map stripCR ++ [(parts.getLast?.getD [])]).map (fun l => (⟨l⟩ : String))

/-- The ignored directory names of the search traversal (system.ts). -/
def ignoredDirs : List String :=
  [".git", "node_modules", "dist", "build", ".next", ".turbo"]

/-- `searchFileForPattern` (system.ts): skip files over 500000 bytes, test
the regex (abstracted as a per-line Boolean test; the code resets
`lastIndex` between lines, so the test is a pure function of the line)
line by line, and turn read errors into an inline pseudo-match. -/
def searchFileForPattern (fs : FsState) (rtest : String → Bool) (filePath : String) :
    List String :=
  match fs.lookupFile filePath with
  | none => ["error reading " ++ filePath ++ ": ENOENT: no such file or directory, stat " ++ filePath]
  | some contents =>
    if 500000 < utf8Len contents then []
    else
      (splitLinesJs contents).enum.filterMap (fun e =>
        if rtest e.2 then some (toString (e.1 + 1) ++ ": " ++ e.2) else none)

/-- The inner per-file result loop of `collectMatches`: push matches one at
a time, stopping as soon as the cap of 100 is reached. -/
def appendCapped (results : List String) : List String → List String
  | [] => results
  | m :: ms =>
    let r := results ++ [m]
    if 100 ≤ r.length then r else appendCapped r ms

/-- The entry loop of one `collectMatches` iteration: directories (except
the ignored names) are queued, files are searched immediately; returns the
directories pushed (in entry order) and the updated results. -/
def processEntries (fs : FsState) (rtest : String → Bool) (cwd current : String) :
    List (String × Bool) → List String × List String → List String × List String
  | [], acc => acc
  | (nm, isD) :: restEntries, (pushed, results) =>
    if isD then
      if ignoredDirs.contains nm then
        processEntries fs rtest cwd current restEntries (pushed, results)
      else
        processEntries fs rtest cwd current restEntries (pushed ++ [childPath current nm], results)
    else
      let filePath := childPath current nm
      let fm := searchFileForPattern fs rtest filePath
      let results' := appendCapped results
        (fm.map (fun m => posixRelative (posixNormAbs cwd) filePath ++ ":" ++ m))
      if 100 ≤ results'.length then (pushed, results')
      else processEntries fs rtest cwd current restEntries (pushed, results')

/-- The `while` loop of `collectMatches`, with the work stack kept top-first
(the source pushes and pops at the array's end).  The fuel bounds the number
of iterations; each directory is pushed at most once, so
`fs.dirs.length + 1` iterations suffice. -/
def collectGo (fs : FsState) (rtest : String → Bool) (cwd : String) :
    Nat → List String → List String → List String
  | 0, _, results => results
  | _ + 1, [], results => results
  | fuel + 1, current :: stack, results =>
    if 100 ≤ results.length then results
    else
      match readdirFs fs current with
      | .error msg =>
        collectGo fs rtest cwd fuel stack
          (results ++ [posixRelative (posixNormAbs cwd) current ++ ": error reading directory: " ++ msg])
      | .ok entries =>
        let pr := processEntries fs rtest cwd current entries ([], results)
        collectGo fs rtest cwd fuel (pr.1.reverse ++ stack) pr.2

/-- `collectMatches` (system.ts). -/
def collectMatches (fs : FsState) (rtest : String → Bool) (cwd root : String) : List String :=
  collectGo fs rtest cwd (fs.dirs.length + 1) [root] []

/-- `truncate` (system.ts): cap combined output at 4000 characters. -/
def truncateOut (value : String) : String :=
  if 4000 < value.length then (⟨value.data.take 4000⟩ : String) ++ "\n...truncated..."
  else value

/-- The sub-root resolution of `createFileSearchTool().execute`: an empty or
missing `path` field falls back to the repository root. -/
def fileSearchRoot (payloadPath : Option String) (cwd : String) : Except String String :=
  match payloadPath with
  | some p => if p.length ≠ 0 then resolveRepoPath p cwd else resolveRepoPath "." cwd
  | none => resolveRepoPath "." cwd

/-- `createFileSearchTool().execute` (system.ts) after the JSON payload has
been parsed and the regex compiled (abstracted as the per-line test
`rtest`): resolve the sub-root, traverse, and render the matches or the
fixed no-matches message. -/
def fileSearchExec (rtest : String → Bool) (payloadPath : Option String)
    (cwd : String) (fs : FsState) : Except String String :=
  match fileSearchRoot payloadPath cwd with
  | .error e => .error e
  | .ok root =>
    let found := collectMatches fs rtest cwd root
    if found.isEmpty then .ok "No matches found."
    else .ok (truncateOut (joinWith "\n" found))

theorem dropWhile_head_false (p : Char → Bool) (l : List Char) {c : Char} {t : List Char}
    (h : l.dropWhile p = c :: t) : p c = false := by
  induction l with
  | nil => simp [List.dropWhile] at h
  | cons a as ih =>
    by_cases hp : p a
    · exact ih (by simpa [List.dropWhile, hp] using h)
    · rw [List.dropWhile_cons_of_neg (by simpa using hp)] at h
      obtain rfl : a = c := by injection h
      simpa using hp

theorem dropWhile_self (p : Char → Bool) (l : List Char) :
    (l.dropWhile p).dropWhile p = l.dropWhile p := by
  cases hd : l.dropWhile p with
  | nil => rfl
  | cons c t =>
    rw [List.dropWhile_cons_of_neg]
    simp [dropWhile_head_false p l hd]

theorem dropWhile_append_singleton {p : Char → Bool} {c : Char}
    (hc : p c = false) (l : List Char) :
    (l ++ [c]).dropWhile p = l.dropWhile p ++ [c] := by
  induction l with
  | nil => simp [List.dropWhile, hc]
  | cons a as ih =>
    by_cases hp : p a
    · simpa [List.dropWhile_cons_of_pos (by simpa using hp)] using ih
    · simp [List.dropWhile_cons_of_neg (by simpa using hp)]

theorem dropTrailWs_cons_of_false {c : Char} (hc : isJsSpace c = false) (t : List Char) :
    dropTrailWs (c :: t) = c :: dropTrailWs t := by
  unfold dropTrailWs
  rw [List.reverse_cons, dropWhile_append_singleton hc]
  simp

theorem dropTrailWs_idem (l : List Char) : dropTrailWs (dropTrailWs l) = dropTrailWs l := by
  unfold dropTrailWs
  rw [List.reverse_reverse, dropWhile_self]

theorem trimChars_idem (l : List Char) : trimChars (trimChars l) = trimChars l := by
  unfold trimChars
  cases hm : l.dropWhile isJsSpace with
  | nil => simp [dropTrailWs, List.dropWhile]
  | cons c t =>
    have hc : isJsSpace c = false := dropWhile_head_false isJsSpace l hm
    rw [dropTrailWs_cons_of_false hc, List.dropWhile_cons_of_neg (by simpa using hc),
      ← dropTrailWs_cons_of_false hc, dropTrailWs_idem]

theorem jsTrimStr_idem (s : String) : jsTrimStr (jsTrimStr s) = jsTrimStr s := by
  unfold jsTrimStr
  exact congrArg _ (trimChars_idem s.data)

theorem resolvedCandidate_trim (p cwd : String) :
    resolvedCandidate (jsTrimStr p) cwd = resolvedCandidate p cwd := by
  unfold resolvedCandidate
  rw [jsTrimStr_idem]

theorem resolveRepoPath_trim (p cwd : String) :
    resolveRepoPath (jsTrimStr p) cwd = resolveRepoPath p cwd := by
  unfold resolveRepoPath
  rw [resolvedCandidate_trim]

/-- C7 (amended): writing `{path, contents}` and then reading the same path
returns exactly the written contents, provided the contents are at most
4000 characters (the read tool truncates longer contents) and at most
200000 bytes (the read tool replaces larger files with a size message);
the path must have a nonempty trimmed form (otherwise it names the root
directory and the write itself fails). -/
theorem write_read_roundtrip (p c cwd : String) (fs fs' : FsState) (msg : String)
    (hrel : (jsTrimStr p).length ≠ 0)
    (hw : writeFileExec p c cwd fs = .ok (fs', msg))
    (hlen : c.length ≤ 4000) (hsize : utf8Len c ≤ 200000) :
    readFileExec p cwd fs' = .ok c := by
  unfold writeFileExec at hw
  cases hres : resolveRepoPath p cwd with
  | error e => rw [hres] at hw; exact absurd hw (by simp)
  | ok target =>
    rw [hres] at hw
    dsimp only at hw
    cases hmk : mkdirRec fs (posixDirname target) with
    | error e => rw [hmk] at hw; exact absurd hw (by simp)
    | ok fs1 =>
      rw [hmk] at hw
      dsimp only at hw
      by_cases hdir : fs1.isDir target = true
      · rw [if_pos hdir] at hw
        exact absurd hw (by simp)
      · rw [if_neg hdir] at hw
        simp only [Except.ok.injEq, Prod.mk.injEq] at hw
        obtain ⟨hfs', _hmsg⟩ := hw
        unfold readFileExec
        dsimp only
        rw [if_neg hrel, resolveRepoPath_trim, hres]
        rw [← hfs']
        split
        · rename_i heq
          exact absurd heq (by simp)
        · rename_i t heq
          injection heq with h
          subst h
          rw [if_neg (by simp only [FsState.isDir] at hdir ⊢; exact hdir)]
          have hlook : FsState.lookupFile { fs1 with files := (target, c) :: fs1.files } target
              = some c := by
            simp [FsState.lookupFile, List.find?_cons]
          simp only [hlook]
          rw [if_neg (by omega : ¬ 200000 < utf8Len c),
            if_neg (by omega : ¬ 4000 < c.length)]

/-- Concrete 4001-character contents for the C7 counterexample. -/
def bigContents : String := ⟨List.replicate 4001 'a'⟩

/-- An initial state with just the repository root. -/
def fsRepo : FsState := { files := [], dirs := ["/repo"] }

/-- C7 counterexample: writing 4001 characters succeeds, but reading the
same path back returns the 4000-character truncation marker text, not the
written contents — the round-trip is not byte-identical for large files. -/
theorem foldl_utf8_acc (l : List Char) : ∀ a : Nat,
    l.foldl (fun n c => n + c.utf8Size) a = a + l.foldl (fun n c => n + c.utf8Size) 0 := by
  induction l with
  | nil => simp
  | cons c t ih =>
    intro a
    simp only [List.foldl_cons]
    rw [ih (a + c.utf8Size), ih (0 + c.utf8Size)]
    omega

theorem utf8Len_replicate (n : Nat) (c : Char) :
    utf8Len ⟨List.replicate n c⟩ = n * c.utf8Size := by
  induction n with
  | zero => simp [utf8Len]
  | succ m ih =>
    unfold utf8Len at ih ⊢
    simp only [List.replicate_succ, List.foldl_cons]
    rw [foldl_utf8_acc, ih, Nat.succ_mul]
    omega

theorem write_read_truncation_counterexample :
    writeFileExec "a.txt" bigContents "/repo" fsRepo
      = .ok (⟨[("/repo/a.txt", bigContents)], ["/repo", "/"]⟩,
          "Wrote " ++ toString bigContents.length ++ " characters to " ++ "a.txt")
  ∧ readFileExec "a.txt" "/repo" ⟨[("/repo/a.txt", bigContents)], ["/repo", "/"]⟩
      = .ok ((⟨List.replicate 4000 'a'⟩ : String) ++ "\n...truncated...")
  ∧ ((⟨List.replicate 4000 'a'⟩ : String) ++ "\n...truncated...") ≠ bigContents := by
  have hu : utf8Len bigContents = 4001 := by
    have h1 : utf8Len bigContents = 4001 * Char.utf8Size 'a' := utf8Len_replicate 4001 'a'
    rw [h1]
    decide
  have hl : bigContents.length = 4001 := by
    show (List.replicate 4001 'a').length = 4001
    rw [List.length_replicate]
  have ht : bigContents.data.take 4000 = List.replicate 4000 'a' := by
    show (List.replicate 4001 'a').take 4000 = _
    rw [List.take_replicate]
    congr 1
  refine ⟨rfl, ?_, ?_⟩
  · unfold readFileExec
    dsimp only
    rw [if_neg (by decide : ¬ (jsTrimStr "a.txt").length = 0)]
    rw [show resolveRepoPath (jsTrimStr "a.txt") "/repo" = Except.ok "/repo/a.txt" from rfl]
    dsimp only
    rw [if_neg (by decide :
      ¬ FsState.isDir ⟨[("/repo/a.txt", bigContents)], ["/repo", "/"]⟩ "/repo/a.txt" = true)]
    rw [show FsState.lookupFile ⟨[("/repo/a.txt", bigContents)], ["/repo", "/"]⟩ "/repo/a.txt"
        = some bigContents from rfl]
    dsimp only
    rw [if_neg (by rw [hu]; omega : ¬ 200000 < utf8Len bigContents),
      if_pos (by rw [hl]; omega : 4000 < bigContents.length), ht]
  · intro h
    have h2 := congrArg (fun s => s.data.length) h
    simp only [bigContents, strData_append] at h2
    rw [List.length_append, List.length_replicate] at h2
    have h3 : (⟨List.replicate 4001 'a'⟩ : String).data.length = 4001 := by
      show (List.replicate 4001 'a').length = 4001
      rw [List.length_replicate]
    rw [h3] at h2
    simp at h2

/-- C7 witness: a small write/read round-trip at concrete inputs. -/
theorem write_read_roundtrip_witness :
    readFileExec "a.txt" "/repo" ⟨[("/repo/a.txt", "hello")], ["/repo", "/"]⟩ = .ok "hello" :=
  write_read_roundtrip "a.txt" "hello" "/repo" fsRepo
    ⟨[("/repo/a.txt", "hello")], ["/repo", "/"]⟩
    ("Wrote " ++ toString ("hello" : String).length ++ " characters to " ++ "a.txt")
    (by decide) rfl (by decide) (by decide)

theorem occursChars_append_right {n h : List Char} (post : List Char)
    (ho : occursChars n h = true) : occursChars n (h ++ post) = true := by
  induction h with
  | nil =>
    simp only [occursChars, List.isEmpty_iff] at ho
    subst ho
    cases post with
    | nil => rfl
    | cons c cs => simp [occursChars, leadsChars]
  | cons c cs ih =>
    simp only [occursChars, Bool.or_eq_true, List.cons_append] at ho ⊢
    rcases ho with h1 | h2
    · exact Or.inl (by simpa [List.cons_append] using leadsChars_extend post h1)
    · exact Or.inr (ih h2)

/-- Containment is preserved by appending. -/
theorem containsStr_append_right (s post needle : String)
    (h : containsStr s needle = true) : containsStr (s ++ post) needle = true := by
  unfold containsStr at *
  rw [strData_append]
  exact occursChars_append_right _ h

/-- C8 (amended): the confirmation message of a successful write contains
the character count (`contents.length`, JavaScript string length — not the
UTF-8 byte count) of the written contents and the root-relative form of the
target path. -/
theorem write_confirmation_contents (p c cwd target : String) (fs fs' : FsState) (msg : String)
    (hres : resolveRepoPath p cwd = .ok target)
    (hw : writeFileExec p c cwd fs = .ok (fs', msg)) :
    msg = "Wrote " ++ toString c.length ++ " characters to " ++ pathFromRepoRoot target cwd
  ∧ containsStr msg (toString c.length) = true
  ∧ containsStr msg (pathFromRepoRoot target cwd) = true := by
  unfold writeFileExec at hw
  rw [hres] at hw
  dsimp only at hw
  cases hmk : mkdirRec fs (posixDirname target) with
  | error e => rw [hmk] at hw; exact absurd hw (by simp)
  | ok fs1 =>
    rw [hmk] at hw
    dsimp only at hw
    by_cases hdir : fs1.isDir target = true
    · rw [if_pos hdir] at hw
      exact absurd hw (by simp)
    · rw [if_neg hdir] at hw
      simp only [Except.ok.injEq, Prod.mk.injEq] at hw
      obtain ⟨_, hmsg⟩ := hw
      refine ⟨hmsg.symm, ?_, ?_⟩
      · rw [← hmsg]
        exact containsStr_append_right _ _ _
          (containsStr_append_right _ _ _ (containsStr_suffix _ _))
      · rw [← hmsg]
        exact containsStr_suffix _ _

/-- C8 witness: the confirmation for a small concrete write. -/
theorem write_confirmation_contents_witness :
    "Wrote 5 characters to a.txt"
        = "Wrote " ++ toString ("hello" : String).length ++ " characters to "
          ++ pathFromRepoRoot "/repo/a.txt" "/repo"
  ∧ containsStr "Wrote 5 characters to a.txt" (toString ("hello" : String).length) = true
  ∧ containsStr "Wrote 5 characters to a.txt" (pathFromRepoRoot "/repo/a.txt" "/repo") = true :=
  write_confirmation_contents "a.txt" "hello" "/repo" "/repo/a.txt" fsRepo
    ⟨[("/repo/a.txt", "hello")], ["/repo", "/"]⟩ "Wrote 5 characters to a.txt" rfl rfl

/-- C8 counterexample: writing the single character `é` (2 UTF-8 bytes on
disk) produces the message `Wrote 1 characters to a.txt` — the character
count, not the byte count: the digit `2` appears nowhere in the message. -/
theorem write_confirmation_bytes_counterexample :
    writeFileExec "a.txt" "é" "/repo" fsRepo
      = .ok (⟨[("/repo/a.txt", "é")], ["/repo", "/"]⟩, "Wrote 1 characters to a.txt")
  ∧ utf8Len "é" = 2
  ∧ containsStr "Wrote 1 characters to a.txt" "2" = false := by
  exact ⟨rfl, rfl, rfl⟩

theorem dropLead_sound : ∀ {a b r : List Char}, dropLead a b = some r → b = a ++ r := by
  intro a
  induction a with
  | nil =>
    intro b r h
    simp only [dropLead, Option.some.injEq] at h
    simp [h]
  | cons x xs ih =>
    intro b r h
    cases b with
    | nil => simp [dropLead] at h
    | cons y ys =>
      simp only [dropLead] at h
      split at h
      · rename_i hxy
        subst hxy
        simpa using ih h
      · simp at h

theorem strExt {a b : String} (h : a.data = b.data) : a = b := by
  cases a
  cases b
  exact congrArg String.mk h

/-- A directory entry name reconstructs the child path it came from. -/
theorem childNameOf_childPath {d q n : String} (h : childNameOf d q = some n) :
    childPath d n = q := by
  unfold childNameOf at h
  dsimp only at h
  cases hd : dropLead (if d = "/" then "/" else d ++ "/").data q.data with
  | none => rw [hd] at h; simp at h
  | some rest =>
    simp only [hd] at h
    have hq := dropLead_sound hd
    by_cases hc : rest.isEmpty || rest.contains '/'
    · rw [if_pos hc] at h
      simp at h
    · rw [if_neg hc] at h
      simp only [Option.some.injEq] at h
      subst h
      unfold childPath
      apply strExt
      rw [strData_append, hq]

theorem mem_enumFrom_snd {α : Type} :
    ∀ (l : List α) (i : Nat) (p : Nat × α), p ∈ List.enumFrom i l → p.2 ∈ l := by
  intro l
  induction l with
  | nil => intro i p h; simp [List.enumFrom] at h
  | cons a t ih =>
    intro i p h
    simp only [List.enumFrom, List.mem_cons] at h
    rcases h with rfl | h
    · exact List.mem_cons_self a t
    · exact List.mem_cons_of_mem a (ih (i + 1) p h)

/-- A file whose every line fails the test yields no matches (and no read
errors, since the file exists in the state). -/
theorem searchFile_nil (fs : FsState) (rtest : String → Bool) (filePath : String)
    (hfile : ∀ e ∈ fs.files, ∀ line ∈ splitLinesJs e.2, rtest line = false)
    (hex : (fs.lookupFile filePath).isSome = true) :
    searchFileForPattern fs rtest filePath = [] := by
  obtain ⟨c, hc⟩ := Option.isSome_iff_exists.mp hex
  unfold searchFileForPattern
  simp only [hc]
  have hcmem : ∃ e ∈ fs.files, e.2 = c := by
    unfold FsState.lookupFile at hc
    cases hfind : fs.files.find? (fun e => e.1 == filePath) with
    | none => rw [hfind] at hc; simp at hc
    | some pair =>
      rw [hfind] at hc
      simp at hc
      exact ⟨pair, List.mem_of_find?_eq_some hfind, hc⟩
  obtain ⟨e, hemem, hec⟩ := hcmem
  split
  · rfl
  · rw [List.filterMap_eq_nil_iff]
    intro p hp
    have hline : p.2 ∈ splitLinesJs c := List.snd_mem_of_mem_enum hp
    rw [← hec] at hline
    rw [hfile e hemem p.2 hline]
    rfl

/-- Every entry listed by `readdir` is backed by the state: directory
entries name directories of the state, file entries name existing files. -/
theorem entriesOf_spec (fs : FsState) (d : String) :
    ∀ e ∈ entriesOf fs d,
      (e.2 = true → fs.dirs.contains (childPath d e.1) = true)
    ∧ (e.2 = false → (fs.lookupFile (childPath d e.1)).isSome = true) := by
  intro e he
  unfold entriesOf at he
  rcases List.mem_append.mp he with hd | hf
  · obtain ⟨q, hq, hmap⟩ := List.mem_filterMap.mp hd
    cases hn : childNameOf d q with
    | none => rw [hn] at hmap; simp at hmap
    | some n =>
      rw [hn] at hmap
      simp at hmap
      subst hmap
      refine ⟨fun _ => ?_, fun hfalse => by simp at hfalse⟩
      rw [childNameOf_childPath hn]
      exact List.elem_eq_true_of_mem hq
  · obtain ⟨pr, hpr, hmap⟩ := List.mem_filterMap.mp hf
    cases hn : childNameOf d pr.1 with
    | none => rw [hn] at hmap; simp at hmap
    | some n =>
      rw [hn] at hmap
      simp at hmap
      subst hmap
      refine ⟨fun htrue => by simp at htrue, fun _ => ?_⟩
      rw [childNameOf_childPath hn]
      unfold FsState.lookupFile
      cases hfind : fs.files.find? (fun e => e.1 == pr.1) with
      | none =>
        exfalso
        have := List.find?_eq_none.mp hfind pr hpr
        simp at this
      | some pair => simp [hfind]

/-- With no matching line anywhere and all entries backed by the state, the
entry loop pushes only directories of the state and produces no results. -/
theorem processEntries_nil (fs : FsState) (rtest : String → Bool) (cwd current : String)
    (hfile : ∀ e ∈ fs.files, ∀ line ∈ splitLinesJs e.2, rtest line = false) :
    ∀ (entries : List (String × Bool)) (pushed : List String),
      (∀ e ∈ entries, (e.2 = true → fs.dirs.contains (childPath current e.1) = true)
        ∧ (e.2 = false → (fs.lookupFile (childPath current e.1)).isSome = true)) →
      (∀ d ∈ pushed, fs.dirs.contains d = true) →
      (processEntries fs rtest cwd current entries (pushed, [])).2 = []
      ∧ ∀ d ∈ (processEntries fs rtest cwd current entries (pushed, [])).1,
          fs.dirs.contains d = true := by
  intro entries
  induction entries with
  | nil =>
    intro pushed _ hpushed
    exact ⟨rfl, hpushed⟩
  | cons e rest ih =>
    intro pushed hents hpushed
    obtain ⟨nm, isD⟩ := e
    cases isD with
    | true =>
      simp only [processEntries]
      by_cases hig : ignoredDirs.contains nm = true
      · rw [if_pos hig]
        exact ih pushed (fun e' he' => hents e' (List.mem_cons_of_mem _ he')) hpushed
      · rw [if_neg hig]
        refine ih (pushed ++ [childPath current nm])
          (fun e' he' => hents e' (List.mem_cons_of_mem _ he')) ?_
        intro d hd
        rcases List.mem_append.mp hd with hd | hd
        · exact hpushed d hd
        · simp only [List.mem_singleton] at hd
          subst hd
          exact (hents (nm, true) (List.mem_cons_self _ _)).1 rfl
    | false =>
      have hsf : searchFileForPattern fs rtest (childPath current nm) = [] :=
        searchFile_nil fs rtest (childPath current nm) hfile
          ((hents (nm, false) (List.mem_cons_self _ _)).2 rfl)
      simp only [processEntries, hsf]
      exact ih pushed (fun e' he' => hents e' (List.mem_cons_of_mem _ he')) hpushed

/-- With no matching line anywhere, the traversal loop ends with an empty
result list whenever every queued directory exists in the state. -/
theorem collectGo_nil (fs : FsState) (rtest : String → Bool) (cwd : String)
    (hfile : ∀ e ∈ fs.files, ∀ line ∈ splitLinesJs e.2, rtest line = false) :
    ∀ (fuel : Nat) (stack : List String),
      (∀ d ∈ stack, fs.dirs.contains d = true) →
      collectGo fs rtest cwd fuel stack [] = [] := by
  intro fuel
  induction fuel with
  | zero => intro stack _; rfl
  | succ n ih =>
    intro stack hstack
    cases stack with
    | nil => rfl
    | cons current rest =>
      have hcur : fs.dirs.contains current = true :=
        hstack current (List.mem_cons_self _ _)
      have hrd : readdirFs fs current = .ok (entriesOf fs current) := by
        unfold readdirFs
        rw [if_pos hcur]
      simp only [collectGo, List.length_nil, hrd]
      rw [if_neg (by omega : ¬ 100 ≤ 0)]
      obtain ⟨hres, hpush⟩ := processEntries_nil fs rtest cwd current hfile
        (entriesOf fs current) [] (entriesOf_spec fs current) (by simp)
      rw [hres]
      apply ih
      intro d hd
      rcases List.mem_append.mp hd with hd | hd
      · exact hpush d (List.mem_reverse.mp hd)
      · exact hstack d (List.mem_cons_of_mem _ hd)

/-- C9: a file search whose per-line test matches no line of any file in
the state, rooted at an existing directory, returns exactly the literal
`No matches found.`. -/
theorem fileSearch_no_matches (rtest : String → Bool) (payloadPath : Option String)
    (cwd : String) (fs : FsState) (root : String)
    (hroot : fileSearchRoot payloadPath cwd = .ok root)
    (hdir : fs.dirs.contains root = true)
    (hfile : ∀ e ∈ fs.files, ∀ line ∈ splitLinesJs e.2, rtest line = false) :
    fileSearchExec rtest payloadPath cwd fs = .ok "No matches found." := by
  unfold fileSearchExec
  simp only [hroot]
  have hcoll : collectMatches fs rtest cwd root = [] := by
    unfold collectMatches
    exact collectGo_nil fs rtest cwd hfile _ [root]
      (by intro d hd; simp only [List.mem_singleton] at hd; subst hd; exact hdir)
  simp [hcoll]

/-- A small concrete state for the C9 witness. -/
def fsSearch : FsState :=
  { files := [("/repo/readme.md", "hello\nworld")], dirs := ["/repo"] }

/-- C9 witness: a never-matching pattern over a small concrete tree yields
the literal no-matches message. -/
theorem fileSearch_no_matches_witness :
    fileSearchExec (fun _ => false) none "/repo" fsSearch = .ok "No matches found." :=
  fileSearch_no_matches (fun _ => false) none "/repo" fsSearch "/repo" rfl rfl
    (fun _ _ _ _ => rfl)
